import Mathlib

/-!
Verification of the EchoNote audio processing pipeline
(backend/src/python_scripts/audio_processor.py).

Shallow embedding conventions:
* a Signal is a list of real samples; spectral magnitude/phase matrices are
  lists of rows (one row per frequency bin, entries indexed by time frame)
  with rational entries so that percentile computations stay executable;
* numpy reductions that raise on an empty array are modelled with Except;
* division is the total field division of Lean (x / 0 = 0) where the same
  convention appears on both sides of a refinement equality and cancels;
  where a division by zero decides a bound, the gain cell is Option valued
  and none stands for the non-finite numpy results (the suppressed-warning
  0.0/0.0 = nan at a zero gating threshold);
* external library calls (librosa load/trim/split/stft/istft, noisereduce,
  scipy filters, soundfile) are either taken as explicit inputs of the
  embedded stage or abstracted as an environment of fallible functions.
-/

namespace EchoNote

/-! ### Command line handling, from main (audio_processor.py lines 340-360) -/

/-- Usage error emitted by main when the argument count is wrong. -/
def usageMsg : String := "Usage: audio_processor.py <input_file> <output_file>"

/-- Embeds the argument validation of main: sys.argv (including the script
name) must have exactly 3 entries, else the usage failure record is emitted
and the process exits; on success the input and output paths are returned. -/
def parse_args (argv : List String) : Except String (String × String) :=
  if argv.length ≠ 3 then Except.error usageMsg
  else Except.ok (argv.getD 1 "", argv.getD 2 "")

/-- The method call sequence hard-coded in AudioProcessor.process
(lines 39-68): there is a single pipeline, always these seven steps. -/
def process_steps : List String :=
  ["load_audio", "normalize_volume", "remove_silence", "apply_spectral_gating",
   "apply_advanced_noise_reduction", "enhance_speech", "final_normalize_and_save"]

/-! ### Silence removal, from AudioProcessor.remove_silence (lines 119-151).
The librosa trim/split calls are external; the embedded stage receives the
trimmed signal and the detected voiced intervals as inputs. -/

/-- Python slice audio[start:end] (clamping semantics match List.drop/take). -/
def sliceSeg (audio : List ℝ) (se : ℕ × ℕ) : List ℝ :=
  (audio.drop se.1).take (se.2 - se.1)

/-- pause_samples = int(0.3 * self.sample_rate); at the fixed 16000 Hz rate
the float product is exactly 4800.0, so integer truncation agrees with
3 * sr / 10. -/
def pause_samples (sr : ℕ) : ℕ := 3 * sr / 10

/-- Reconstruction loop of remove_silence: if any voiced interval exists,
collect each slice followed by a 300 ms block of zeros, drop the trailing
zero block (segments[:-1]) and concatenate; otherwise the signal is kept. -/
def remove_silence_body (audio : List ℝ) (intervals : List (ℕ × ℕ)) (sr : ℕ) :
    List ℝ :=
  if intervals.isEmpty then audio
  else
    (((intervals.map
        (fun se => [sliceSeg audio se, List.replicate (pause_samples sr) 0])).flatten).dropLast).flatten

/-- The one diagnostic line printed by remove_silence, with the formatted
new duration carried as an exact rational. -/
def silence_removed_line (out : List ℝ) (sr : ℕ) : String × ℚ :=
  ("Silence removed (new duration)", (out.length : ℚ) / (sr : ℚ))

/-- Complete observable behaviour of the remove_silence stage: the new signal
together with the diagnostic lines it prints (always exactly the one
progress line, on every path of the source). -/
def remove_silence_run (trimmed : List ℝ) (intervals : List (ℕ × ℕ)) (sr : ℕ) :
    List ℝ × List (String × ℚ) :=
  let out := remove_silence_body trimmed intervals sr
  (out, [silence_removed_line out sr])

/-- Modelled from the spec: a warning condition would be a printed line
marked as a warning; the spec gives no concrete text, so any line starting
with a warning marker is accepted. -/
def isWarningLine (s : String) : Bool :=
  "Warning".data.isPrefixOf s.data || "WARNING".data.isPrefixOf s.data ||
    "⚠".data.isPrefixOf s.data

/-! ### Spectral gating, from AudioProcessor.apply_spectral_gating
(lines 153-178), and the Wiener filter (lines 210-231). The STFT/ISTFT pair
is external; the embedded stage acts on the magnitude and phase matrices. -/

/-- Ascending sort of the data, as numpy does before interpolating. -/
def npSorted (l : List ℚ) : List ℚ := List.insertionSort (fun a b => a ≤ b) l

/-- Interpolation position q/100 * (n-1) of numpy.percentile (method
linear, the default) over n data points. -/
def pctPos (q : ℚ) (n : ℕ) : ℚ := q / 100 * ((n : ℚ) - 1)

/-- Integer part of the interpolation position. -/
def pctIdx (q : ℚ) (n : ℕ) : ℕ := (Int.floor (pctPos q n)).toNat

/-- Sorted entry at the integer part of the position. -/
def pctLo (q : ℚ) (l : List ℚ) : ℚ := (npSorted l).getD (pctIdx q l.length) 0

/-- Sorted entry one past the integer part of the position (falling back to
the lower entry at the top of the range, where the fractional part is 0). -/
def pctHi (q : ℚ) (l : List ℚ) : ℚ :=
  (npSorted l).getD (pctIdx q l.length + 1) (pctLo q l)

/-- numpy.percentile with the default linear interpolation: the result
interpolates between the two sorted entries around position q/100 * (n-1)
by the fractional part of that position. -/
def percentile (q : ℚ) (l : List ℚ) : ℚ :=
  pctLo q l + (pctPos q l.length - (pctIdx q l.length : ℚ)) * (pctHi q l - pctLo q l)

/-- noise_floor = np.percentile(magnitude, 20, axis=1): the 20th percentile
of each frequency bin row across all time frames. -/
def noise_floor (mag : List (List ℚ)) : List ℚ :=
  mag.map (fun row => percentile 20 row)

/-- threshold = noise_floor * 2.0, broadcast per bin. -/
def gate_threshold (mag : List (List ℚ)) : List ℚ :=
  (noise_floor mag).map (fun v => v * 2)

/-- gain = np.where(magnitude > threshold, 1.0, (magnitude/threshold)**2),
with the per-bin threshold broadcast across the time frames of its row. -/
def gate_gain (mag : List (List ℚ)) : List (List ℚ) :=
  List.zipWith
    (fun row t => row.map (fun m => if t < m then 1 else (m / t) ^ 2))
    mag (gate_threshold mag)

/-- gated_magnitude = magnitude * gain, elementwise. -/
def gated_magnitude (mag : List (List ℚ)) : List (List ℚ) :=
  List.zipWith (List.zipWith (fun m g => m * g)) mag (gate_gain mag)

/-- One selected gate gain cell with numpy division semantics: where the
magnitude exceeds the threshold, np.where selects 1.0; otherwise it selects
(magnitude/threshold)**2, which at threshold 0 is a division by zero whose
RuntimeWarning the source suppresses — 0.0/0.0 is nan (and x/0.0 is an
infinity), so the cell holds no finite number, modelled as none. -/
def gate_gain_cell (m t : ℚ) : Option ℚ :=
  if t < m then some 1
  else if t = 0 then none
  else some ((m / t) ^ 2)

/-- The gate gain matrix under numpy division semantics: the per-bin
threshold is broadcast across the time frames of its row, and each cell is
some finite gain or none where numpy produces nan. -/
def gate_gain_ieee (mag : List (List ℚ)) : List (List (Option ℚ)) :=
  List.zipWith
    (fun row t => row.map (fun m => gate_gain_cell m t))
    mag (gate_threshold mag)

/-- The spectral gating stage on the decomposed STFT: the magnitude is gated
and the phase matrix is passed through to the reconstruction unchanged. -/
def apply_spectral_gating (mag phase : List (List ℚ)) :
    List (List ℚ) × List (List ℚ) :=
  (gated_magnitude mag, phase)

/-- Modelled from the spec sentence for SpectralGate: per bin the noise
floor is the 20th percentile over time, the threshold is 2 times it, and
each magnitude entry is kept where it exceeds the threshold and otherwise
multiplied by the squared ratio to the threshold. -/
def spectralGateSpec (mag : List (List ℚ)) : List (List ℚ) :=
  mag.map (fun row =>
    let t := 2 * percentile 20 row
    row.map (fun m => if t < m then m else m * (m / t) ^ 2))

/-- signal_power = magnitude ** 2. -/
def signal_power (mag : List (List ℚ)) : List (List ℚ) :=
  mag.map (fun row => row.map (fun m => m ^ 2))

/-- noise_power = np.percentile(signal_power, 10, axis=1), per bin. -/
def wiener_noise_power (mag : List (List ℚ)) : List ℚ :=
  (signal_power mag).map (fun row => percentile 10 row)

/-- The 1e-10 regulariser of the Wiener gain denominator. -/
def wiener_eps : ℚ := 1 / 10 ^ 10

/-- wiener_gain = signal_power / (signal_power + noise_power + 1e-10), with
the per-bin noise power broadcast across its row. -/
def wiener_gain (mag : List (List ℚ)) : List (List ℚ) :=
  List.zipWith
    (fun row np2 => row.map (fun p => p / (p + np2 + wiener_eps)))
    (signal_power mag) (wiener_noise_power mag)

/-! ### Volume normalization, from AudioProcessor.normalize_volume
(lines 103-117). Samples are real; np.mean of an empty array is nan (a
suppressed warning, and nan > 0 is false), while np.abs(audio).max() raises
on an empty array, which the Except models. -/

/-- rms = np.sqrt(np.mean(self.audio ** 2)). -/
noncomputable def rms (l : List ℝ) : ℝ :=
  Real.sqrt ((l.map (fun x => x ^ 2)).sum / l.length)

/-- peak = np.abs(audio).max(); on a nonempty list the fold with base 0
agrees with the numpy maximum because every absolute value is nonnegative. -/
noncomputable def peakAbs (l : List ℝ) : ℝ :=
  (l.map (fun x => |x|)).foldr max 0

/-- Exception text of a numpy reduction over an empty array. -/
def emptyReduceMsg : String :=
  "zero-size array to reduction operation maximum which has no identity"

/-- Embeds normalize_volume: scale to target RMS 0.1 when RMS is positive,
then rescale by 0.95/peak when the peak exceeds 0.95. The peak reduction
raises on an empty signal. -/
noncomputable def normalize_volume (l : List ℝ) : Except String (List ℝ) :=
  let r := rms l
  let scaled := if 0 < r then l.map (fun x => x * (0.1 / r)) else l
  if scaled.isEmpty then Except.error emptyReduceMsg
  else
    let peak := peakAbs scaled
    Except.ok (if 0.95 < peak then scaled.map (fun x => x * (0.95 / peak)) else scaled)

/-- Modelled from the spec sentence for the Normalizer, RMS step: if
RMS > 0, scale all samples by target_RMS / RMS with target_RMS = 0.1. -/
noncomputable def rmsScale (l : List ℝ) : List ℝ :=
  if 0 < rms l then l.map (fun x => x * (0.1 / rms l)) else l

/-- Modelled from the spec sentence for the Normalizer, peak step: if
peak > 0.95, rescale by 0.95 / peak. -/
noncomputable def peakScale (l : List ℝ) : List ℝ :=
  if 0.95 < peakAbs l then l.map (fun x => x * (0.95 / peakAbs l)) else l

/-- Modelled from the spec: the Normalizer contract as written, RMS scaling
followed by peak rescaling, as a total function. -/
noncomputable def normalizerSpec (l : List ℝ) : List ℝ :=
  peakScale (rmsScale l)

/-! ### Final stage, from AudioProcessor.final_normalize_and_save
(lines 289-305): peak normalization to 0.891, then a hard clip; the
np.abs(audio).max() reduction again raises on an empty signal, and the
actual file write is left to the external encoder. -/

/-- Peak normalization to -1 dB: scale by 0.891/peak when peak > 0. -/
noncomputable def peakNormalize (l : List ℝ) : List ℝ :=
  if 0 < peakAbs l then l.map (fun x => x * (0.891 / peakAbs l)) else l

/-- np.clip(x, -1.0, 1.0) on one sample. -/
noncomputable def clip1 (x : ℝ) : ℝ := min (max x (-1)) 1

/-- The in-memory transform of final_normalize_and_save, before the buffer
is handed to soundfile: peak-normalize, then clip every sample. -/
noncomputable def final_normalize (l : List ℝ) : Except String (List ℝ) :=
  if l.isEmpty then Except.error emptyReduceMsg
  else Except.ok ((peakNormalize l).map clip1)

/-! ### Dynamic range compression, from AudioProcessor.apply_compression
(lines 261-287). The Hilbert envelope and its Savitzky-Golay smoothing are
external computations; the embedded stage receives the smoothed envelope. -/

/-- Per-sample gain: 1 everywhere, overwritten on the mask envelope > 0.1
by (threshold + (envelope - threshold) / ratio) / envelope with ratio 3. -/
noncomputable def compression_gain (e : ℝ) : ℝ :=
  if 0.1 < e then (0.1 + (e - 0.1) / 3) / e else 1

/-- compressed = self.audio * gain, elementwise against the envelope. -/
noncomputable def apply_compression (audio envl : List ℝ) : List ℝ :=
  List.zipWith (fun x e => x * compression_gain e) audio envl

/-! ### Pipeline controller, from AudioProcessor.process (lines 39-86).
The externally implemented stages are an environment of fallible functions;
normalize_volume and the final peak/clip transform are the concrete
embeddings above. The Bool returned along with the result records whether
the output file write was performed. -/

/-- Metrics record returned on success (calculate_metrics, lines 310-337). -/
structure MetricsRec where
  rms_level : ℝ
  peak_level : ℝ
  crest_factor : ℝ
  zero_crossing_rate : ℝ
  estimated_snr_db : ℝ
  spectral_flatness : ℝ

/-- Processing Result: the JSON object printed by the script. -/
inductive PResult where
  | success (output_path : String) (duration : ℝ) (sample_rate : ℕ)
      (channels : ℕ) (metrics : MetricsRec)
  | failure (error : String)

/-- Environment of the externally implemented pipeline stages; any of them
may raise, which process converts into a failure result. -/
structure StageEnv where
  load_audio : Except String (List ℝ)
  remove_silence : List ℝ → Except String (List ℝ)
  apply_spectral_gating : List ℝ → Except String (List ℝ)
  apply_advanced_noise_reduction : List ℝ → Except String (List ℝ)
  enhance_speech : List ℝ → Except String (List ℝ)
  write_file : List ℝ → Except String Unit
  calculate_metrics : List ℝ → Except String MetricsRec

/-- Embeds AudioProcessor.process: the seven steps run in order inside one
try block; the first exception becomes a failure record. self.duration is
set by load_audio and updated by remove_silence only, so the reported
duration comes from the post-silence-removal length. The Bool component
records whether sf.write has happened. -/
noncomputable def process (env : StageEnv) (out_path : String) : PResult × Bool :=
  match env.load_audio with
  | .error e => (.failure e, false)
  | .ok a1 =>
    match normalize_volume a1 with
    | .error e => (.failure e, false)
    | .ok a2 =>
      match env.remove_silence a2 with
      | .error e => (.failure e, false)
      | .ok a3 =>
        match env.apply_spectral_gating a3 with
        | .error e => (.failure e, false)
        | .ok a4 =>
          match env.apply_advanced_noise_reduction a4 with
          | .error e => (.failure e, false)
          | .ok a5 =>
            match env.enhance_speech a5 with
            | .error e => (.failure e, false)
            | .ok a6 =>
              match final_normalize a6 with
              | .error e => (.failure e, false)
              | .ok a7 =>
                match env.write_file a7 with
                | .error e => (.failure e, false)
                | .ok _ =>
                  match env.calculate_metrics a7 with
                  | .error e => (.failure e, true)
                  | .ok m =>
                    (.success out_path ((a3.length : ℝ) / 16000) 16000 1 m, true)

/-- Concrete environment in which every external stage behaves like the
identity and only the metrics computation raises. -/
noncomputable def envCE : StageEnv where
  load_audio := Except.ok [(1 : ℝ) / 2]
  remove_silence := fun a => Except.ok a
  apply_spectral_gating := fun a => Except.ok a
  apply_advanced_noise_reduction := fun a => Except.ok a
  enhance_speech := fun a => Except.ok a
  write_file := fun _ => Except.ok ()
  calculate_metrics := fun _ => Except.error "metrics computation failed"

/-! ## Claim C1 -/

/-- Claim C1 counterexample: invoking the script with a third mode argument
does not select a processing mode; main rejects any argument count other
than two user arguments with the usage failure. -/
theorem C1_counterexample :
    parse_args ["audio_processor.py", "input.wav", "output.wav", "minimal"]
      = Except.error usageMsg := by
  rfl

/-- Claim C1 (amended): the command accepts exactly an input path and an
output path; any third (mode) argument makes main emit the usage failure
record, and every invocation runs the same fixed seven step pipeline, with
no minimal, full, vad or bandpass variants. -/
theorem C1_amended_claim (argv : List String) :
    (argv.length ≠ 3 → parse_args argv = Except.error usageMsg) ∧
    (argv.length = 3 →
      parse_args argv = Except.ok (argv.getD 1 "", argv.getD 2 "")) ∧
    process_steps.length = 7 := by
  refine ⟨fun h => ?_, fun h => ?_, rfl⟩ <;> simp [parse_args, h]

/-- Witness for the amended C1 theorem at a concrete argument vector. -/
theorem C1_witness :
    (["audio_processor.py", "in.wav", "out.wav", "full"] : List String).length ≠ 3 ∧
    parse_args ["audio_processor.py", "in.wav", "out.wav", "full"]
      = Except.error usageMsg :=
  ⟨by decide, (C1_amended_claim ["audio_processor.py", "in.wav", "out.wav", "full"]).1 (by decide)⟩

/-! ## Claim C9 -/

/-- Claim C9 counterexample: on a run that detects no voiced intervals the
stage keeps the trimmed signal, but its diagnostic output contains no
warning line at all, against the claim that a warning condition is
signaled. -/
theorem C9_counterexample :
    (remove_silence_run [(1 : ℝ) / 2] [] 16000).1 = [(1 : ℝ) / 2] ∧
    ((remove_silence_run [(1 : ℝ) / 2] [] 16000).2).filter
      (fun p => isWarningLine p.1) = [] := by
  constructor
  · rfl
  · decide

/-- Claim C9 (amended): if no voiced intervals are found the trimmed signal
is retained unchanged and the stage completes without failing, but no
warning is signaled: the stage emits exactly the ordinary progress line it
prints on every run. -/
theorem C9_amended_claim (trimmed : List ℝ) (sr : ℕ) :
    remove_silence_run trimmed [] sr = (trimmed, [silence_removed_line trimmed sr]) ∧
    ((remove_silence_run trimmed [] sr).2).filter (fun p => isWarningLine p.1) = [] := by
  have hw : isWarningLine "Silence removed (new duration)" = false := by decide
  constructor
  · simp [remove_silence_run, remove_silence_body]
  · simp [remove_silence_run, remove_silence_body, silence_removed_line,
      List.filter, hw]

/-! ## Claim C8 -/

/-- Appending a separator after every block and then dropping the final
list before concatenating is the same as interleaving the separator
between consecutive blocks. -/
theorem flatten_dropLast_intercalate {α β : Type} (f : α → List β) (z : List β) :
    ∀ (xs : List α), xs ≠ [] →
      ((((xs.map (fun x => [f x, z])).flatten).dropLast).flatten)
        = List.intercalate z (xs.map f)
  | [], h => absurd rfl h
  | [x], _ => by
      simp [List.intercalate]
  | x :: y :: t, _ => by
      have ih := flatten_dropLast_intercalate f z (y :: t) (by simp)
      have hM : ((y :: t).map (fun x => [f x, z])).flatten ≠ [] := by
        simp
      calc ((((x :: y :: t).map (fun x => [f x, z])).flatten).dropLast).flatten
          = (([f x, z] ++ ((y :: t).map (fun x => [f x, z])).flatten).dropLast).flatten := by
            simp
        _ = ([f x, z] ++ (((y :: t).map (fun x => [f x, z])).flatten).dropLast).flatten := by
            rw [List.dropLast_append_of_ne_nil _ hM]
        _ = f x ++ z ++ ((((y :: t).map (fun x => [f x, z])).flatten).dropLast).flatten := by
            simp
        _ = f x ++ z ++ List.intercalate z ((y :: t).map f) := by rw [ih]
        _ = List.intercalate z ((x :: y :: t).map f) := by
            simp [List.intercalate, List.intersperse_cons₂]

/-- Claim C8: with at least one voiced interval, the silence removal stage
rebuilds the signal as the voiced intervals separated by exactly one
300 ms (4800 samples at 16 kHz) all-zero gap, the gap after the last
interval being dropped, so the result ends with the last interval. -/
theorem C8_theorem (audio : List ℝ) (intervals : List (ℕ × ℕ))
    (h : intervals ≠ []) :
    remove_silence_body audio intervals 16000
      = List.intercalate (List.replicate 4800 (0 : ℝ))
          (intervals.map (sliceSeg audio)) := by
  have h4800 : pause_samples 16000 = 4800 := rfl
  simp only [remove_silence_body, h4800]
  rw [if_neg (by simp [h])]
  exact flatten_dropLast_intercalate (sliceSeg audio) _ intervals h

/-- Witness for the C8 theorem on a concrete signal with two voiced
intervals. -/
theorem C8_witness :
    ([((0 : ℕ), (2 : ℕ)), (3, 4)] : List (ℕ × ℕ)) ≠ [] ∧
    remove_silence_body [(1 : ℝ), 2, 3, 4] [(0, 2), (3, 4)] 16000
      = List.intercalate (List.replicate 4800 (0 : ℝ))
          (([((0 : ℕ), (2 : ℕ)), (3, 4)] : List (ℕ × ℕ)).map
            (sliceSeg [(1 : ℝ), 2, 3, 4])) :=
  ⟨by decide, C8_theorem [(1 : ℝ), 2, 3, 4] [(0, 2), (3, 4)] (by decide)⟩

/-! ## Claims C4 and C5: helper lemmas about percentile and broadcasting -/

/-- A default lookup into a list of nonnegatives with a nonnegative default
is nonnegative. -/
theorem getD_nonneg {s : List ℚ} (hs : ∀ x ∈ s, 0 ≤ x) {d : ℚ} (hd : 0 ≤ d)
    (i : ℕ) : 0 ≤ s.getD i d := by
  rcases lt_or_le i s.length with h | h
  · rw [List.getD_eq_getElem?_getD, List.getElem?_eq_getElem h]
    exact hs _ (List.getElem_mem h)
  · rw [List.getD_eq_getElem?_getD, List.getElem?_eq_none h]
    exact hd

/-- Sorting preserves nonnegativity of the entries. -/
theorem npSorted_nonneg {l : List ℚ} (hl : ∀ x ∈ l, 0 ≤ x) :
    ∀ x ∈ npSorted l, 0 ≤ x := by
  intro x hx
  exact hl x ((List.mem_insertionSort (fun a b => a ≤ b)).mp hx)

/-- The lower interpolation entry of a nonnegative data set is nonnegative. -/
theorem pctLo_nonneg (q : ℚ) {l : List ℚ} (hl : ∀ x ∈ l, 0 ≤ x) : 0 ≤ pctLo q l :=
  getD_nonneg (npSorted_nonneg hl) le_rfl _

/-- The upper interpolation entry of a nonnegative data set is nonnegative. -/
theorem pctHi_nonneg (q : ℚ) {l : List ℚ} (hl : ∀ x ∈ l, 0 ≤ x) : 0 ≤ pctHi q l :=
  getD_nonneg (npSorted_nonneg hl) (pctLo_nonneg q hl) _

/-- A percentile of nonnegative data is nonnegative: the interpolation
weight lies in [0, 1), so the result is a convex combination of two
nonnegative entries. -/
theorem percentile_nonneg {q : ℚ} (hq : 0 ≤ q) {l : List ℚ}
    (hl : ∀ x ∈ l, 0 ≤ x) : 0 ≤ percentile q l := by
  have ha := pctLo_nonneg q hl
  have hb := pctHi_nonneg q hl
  rcases eq_or_ne l [] with rfl | hne
  · have hlo : pctLo q ([] : List ℚ) = 0 := by simp [pctLo, npSorted]
    have hhi : pctHi q ([] : List ℚ) = pctLo q [] := by simp [pctHi, npSorted, pctLo]
    simp [percentile, hlo, hhi]
  · have hlen : (1 : ℚ) ≤ ((l.length : ℕ) : ℚ) := by
      have : 1 ≤ l.length := List.length_pos.mpr hne
      exact_mod_cast this
    have hpos : 0 ≤ pctPos q l.length := by
      unfold pctPos
      apply mul_nonneg (by positivity)
      linarith
    have hfl : 0 ≤ ⌊pctPos q l.length⌋ := Int.floor_nonneg.mpr hpos
    have hi : ((pctIdx q l.length : ℕ) : ℚ) = ((⌊pctPos q l.length⌋ : ℤ) : ℚ) := by
      unfold pctIdx
      exact_mod_cast congrArg (fun z : ℤ => (z : ℚ)) (Int.toNat_of_nonneg hfl)
    have hg0 : 0 ≤ pctPos q l.length - ((pctIdx q l.length : ℕ) : ℚ) := by
      rw [hi]; exact sub_nonneg.mpr (Int.floor_le _)
    have hg1 : pctPos q l.length - ((pctIdx q l.length : ℕ) : ℚ) ≤ 1 := by
      rw [hi]
      have := Int.lt_floor_add_one (pctPos q l.length)
      push_cast at this ⊢
      linarith
    unfold percentile
    nlinarith [mul_nonneg hg0 hb, mul_nonneg (sub_nonneg.mpr hg1) ha]

/-- Every element of a zipWith image comes from a pair of elements of the
two argument lists. -/
theorem of_mem_zipWith {α β γ : Type} {f : α → β → γ} :
    ∀ {l₁ : List α} {l₂ : List β} {c : γ}, c ∈ List.zipWith f l₁ l₂ →
      ∃ a ∈ l₁, ∃ b ∈ l₂, c = f a b
  | [], _, c, h => by simp at h
  | _ :: _, [], c, h => by simp at h
  | a :: t₁, b :: t₂, c, h => by
    simp only [List.zipWith_cons_cons, List.mem_cons] at h
    rcases h with rfl | h'
    · exact ⟨a, by simp, b, by simp, rfl⟩
    · rcases of_mem_zipWith h' with ⟨a', ha', b', hb', rfl⟩
      exact ⟨a', by simp [ha'], b', by simp [hb'], rfl⟩

/-- Zipping a list against its own map reduces to a single map. -/
theorem zipWith_map_same {α β γ : Type} (f : α → β → γ) (g : α → β) :
    ∀ (l : List α), List.zipWith f l (l.map g) = l.map (fun x => f x (g x))
  | [] => rfl
  | x :: t => by simp [zipWith_map_same f g t]

/-- Gating thresholds of a nonnegative magnitude matrix are nonnegative. -/
theorem gate_threshold_nonneg {mag : List (List ℚ)}
    (h : ∀ row ∈ mag, ∀ m ∈ row, 0 ≤ m) : ∀ t ∈ gate_threshold mag, 0 ≤ t := by
  intro t ht
  simp only [gate_threshold, noise_floor, List.map_map, Function.comp_def,
    List.mem_map] at ht
  rcases ht with ⟨row, hrow, rfl⟩
  have := @percentile_nonneg 20 (by norm_num) row (h row hrow)
  linarith

/-- The 20th percentile of a single zero sample is zero. -/
theorem percentile20_single_zero : percentile 20 [(0 : ℚ)] = 0 := by
  have hs : npSorted [(0 : ℚ)] = [0] := rfl
  unfold percentile pctLo pctHi pctIdx pctPos
  rw [hs]
  norm_num

/-- Claim C4 counterexample: on the all-zero single-cell magnitude matrix
the noise floor of the bin is 0, the threshold is 0, np.where selects the
(magnitude/threshold)**2 branch at that cell, and numpy computes
0.0/0.0 = nan with the warning suppressed — a gate gain that is not a
number in [0, 1]. -/
theorem C4_counterexample :
    gate_gain_ieee [[(0 : ℚ)]] = [[Option.none]] := by
  unfold gate_gain_ieee gate_threshold noise_floor
  simp only [List.map_cons, List.map_nil, List.zipWith_cons_cons,
    List.zipWith_nil_right]
  rw [percentile20_single_zero]
  unfold gate_gain_cell
  norm_num

/-- Claim C4 (amended): for every magnitude matrix, every Wiener-filter
gain is in [0, 1], and every spectral-gate gain cell that holds a finite
number holds one in [0, 1]; at a cell whose bin threshold is zero and
whose magnitude does not exceed it the gate gain is nan instead. -/
theorem C4_amended_claim (mag : List (List ℚ))
    (h : ∀ row ∈ mag, ∀ m ∈ row, 0 ≤ m) :
    (∀ row ∈ gate_gain_ieee mag, ∀ g ∈ row,
      ∀ q : ℚ, g = some q → 0 ≤ q ∧ q ≤ 1) ∧
    (∀ row ∈ wiener_gain mag, ∀ g ∈ row, 0 ≤ g ∧ g ≤ 1) := by
  constructor
  · intro row hrow g hg q hq
    rcases of_mem_zipWith hrow with ⟨r0, hr0, t, htm, rfl⟩
    rcases List.mem_map.mp hg with ⟨m, hm, rfl⟩
    have hmn := h r0 hr0 m hm
    have htn := gate_threshold_nonneg h t htm
    unfold gate_gain_cell at hq
    by_cases h1 : t < m
    · rw [if_pos h1] at hq
      injection hq with hq'
      subst hq'
      norm_num
    · rw [if_neg h1] at hq
      by_cases h2 : t = 0
      · rw [if_pos h2] at hq
        exact absurd hq (by simp)
      · rw [if_neg h2] at hq
        injection hq with hq'
        subst hq'
        have ht0 : 0 < t := lt_of_le_of_ne htn (Ne.symm h2)
        push_neg at h1
        constructor
        · positivity
        · have hle : m / t ≤ 1 := (div_le_one ht0).mpr h1
          have h0 : 0 ≤ m / t := div_nonneg hmn ht0.le
          nlinarith
  · intro row hrow g hg
    rcases of_mem_zipWith hrow with ⟨rp, hrp, np2, hnp, rfl⟩
    rcases List.mem_map.mp hg with ⟨p, hp, rfl⟩
    have hpn : 0 ≤ p := by
      rcases List.mem_map.mp hrp with ⟨row0, hrow0, rfl⟩
      rcases List.mem_map.mp hp with ⟨m, hm, rfl⟩
      positivity
    have hnpn : 0 ≤ np2 := by
      simp only [wiener_noise_power, signal_power, List.map_map,
        Function.comp_def, List.mem_map] at hnp
      rcases hnp with ⟨row0, hrow0, rfl⟩
      refine @percentile_nonneg 10 (by norm_num) _ ?_
      intro x hx
      rcases List.mem_map.mp hx with ⟨m, hm, rfl⟩
      positivity
    have heps : (0 : ℚ) < wiener_eps := by norm_num [wiener_eps]
    have hd : 0 < p + np2 + wiener_eps := by linarith
    constructor
    · exact div_nonneg hpn hd.le
    · rw [div_le_one hd]; linarith

/-- Witness for the amended C4 theorem on a concrete 2 by 3 magnitude
matrix. -/
theorem C4_witness :
    (∀ row ∈ ([[1, 2, 0], [3, 3, 3]] : List (List ℚ)), ∀ m ∈ row, 0 ≤ m) ∧
    ((∀ row ∈ gate_gain_ieee [[1, 2, 0], [3, 3, 3]], ∀ g ∈ row,
        ∀ q : ℚ, g = some q → 0 ≤ q ∧ q ≤ 1) ∧
     (∀ row ∈ wiener_gain [[1, 2, 0], [3, 3, 3]], ∀ g ∈ row, 0 ≤ g ∧ g ≤ 1)) :=
  ⟨by decide, C4_amended_claim [[1, 2, 0], [3, 3, 3]] (by decide)⟩

/-- Claim C5: the spectral gating stage equals the specified per-bin
transform (noise floor at the 20th percentile over time, threshold at
twice the floor, gain 1 above the threshold and the squared ratio below,
applied to the magnitude) and passes the phase through unchanged. -/
theorem C5_theorem (mag phase : List (List ℚ)) :
    apply_spectral_gating mag phase = (spectralGateSpec mag, phase) := by
  unfold apply_spectral_gating
  refine Prod.ext ?_ rfl
  show gated_magnitude mag = spectralGateSpec mag
  simp only [gated_magnitude, gate_gain, gate_threshold, noise_floor,
    List.map_map, Function.comp_def, zipWith_map_same, spectralGateSpec]
  refine List.map_congr_left fun row _ => ?_
  refine List.map_congr_left fun m _ => ?_
  rw [mul_comm (percentile 20 row) 2]
  by_cases h : 2 * percentile 20 row < m
  · simp [h]
  · simp [h]

/-! ## Helper lemmas for the real-valued stages -/

/-- Peak of the empty signal under the fold convention. -/
theorem peakAbs_nil : peakAbs [] = 0 := rfl

/-- Unfolding the peak one sample at a time. -/
theorem peakAbs_cons (x : ℝ) (t : List ℝ) :
    peakAbs (x :: t) = max |x| (peakAbs t) := rfl

/-- The peak is never negative. -/
theorem peakAbs_nonneg (l : List ℝ) : 0 ≤ peakAbs l := by
  induction l with
  | nil => simp [peakAbs_nil]
  | cons x t ih => rw [peakAbs_cons]; exact le_max_of_le_right ih

/-- Every sample is bounded by the peak. -/
theorem abs_le_peakAbs {l : List ℝ} {x : ℝ} (hx : x ∈ l) : |x| ≤ peakAbs l := by
  induction l with
  | nil => simp at hx
  | cons y t ih =>
    rw [peakAbs_cons]
    rcases List.mem_cons.mp hx with rfl | h
    · exact le_max_left _ _
    · exact le_max_of_le_right (ih h)

/-- A uniform sample bound bounds the peak. -/
theorem peakAbs_le {l : List ℝ} {c : ℝ} (hc : 0 ≤ c)
    (h : ∀ x ∈ l, |x| ≤ c) : peakAbs l ≤ c := by
  induction l with
  | nil => simpa [peakAbs_nil] using hc
  | cons y t ih =>
    rw [peakAbs_cons]
    exact max_le (h y (by simp)) (ih (fun x hx => h x (by simp [hx])))

/-- The peak scales with the absolute value of a uniform gain. -/
theorem peakAbs_map_mul (l : List ℝ) (c : ℝ) :
    peakAbs (l.map (fun x => x * c)) = |c| * peakAbs l := by
  induction l with
  | nil => simp [peakAbs_nil]
  | cons x t ih =>
    simp only [List.map_cons, peakAbs_cons, ih, abs_mul]
    rw [mul_max_of_nonneg _ _ (abs_nonneg c), mul_comm |x| |c|]

/-- A sum of squared samples is nonnegative. -/
theorem sum_sq_nonneg (l : List ℝ) : 0 ≤ (l.map (fun x => x ^ 2)).sum := by
  apply List.sum_nonneg
  intro x hx
  rcases List.mem_map.mp hx with ⟨y, _, rfl⟩
  positivity

/-- The RMS is never negative. -/
theorem rms_nonneg (l : List ℝ) : 0 ≤ rms l := Real.sqrt_nonneg _

/-- The RMS scales with the absolute value of a uniform gain. -/
theorem rms_map_mul (l : List ℝ) (c : ℝ) :
    rms (l.map (fun x => x * c)) = |c| * rms l := by
  unfold rms
  have h1 : ((l.map (fun x => x * c)).map (fun x => x ^ 2)).sum
      = ((l.map (fun x => x ^ 2)).sum) * c ^ 2 := by
    rw [List.map_map]
    have h2 : ((fun x => x ^ 2) ∘ fun x => x * c) = fun x => x ^ 2 * c ^ 2 := by
      funext x; simp [mul_pow]
    rw [h2, ← List.sum_map_mul_right]
  rw [h1, List.length_map]
  rw [show ((l.map (fun x => x ^ 2)).sum * c ^ 2) / l.length
      = c ^ 2 * ((l.map (fun x => x ^ 2)).sum / l.length) by ring]
  rw [Real.sqrt_mul (by positivity), Real.sqrt_sq_eq_abs]

/-- A signal whose RMS is not positive is identically zero. -/
theorem all_zero_of_not_rms_pos {l : List ℝ} (h : ¬ 0 < rms l) :
    ∀ x ∈ l, x = 0 := by
  intro x hx
  have hne : l ≠ [] := by rintro rfl; simp at hx
  have hr0 : rms l = 0 := le_antisymm (not_lt.mp h) (rms_nonneg l)
  have hdiv : (l.map (fun x => x ^ 2)).sum / (l.length : ℝ) ≤ 0 :=
    Real.sqrt_eq_zero'.mp hr0
  have hlen : (0 : ℝ) < l.length := by
    have : 0 < l.length := List.length_pos.mpr hne
    exact_mod_cast this
  have hsum : (l.map (fun x => x ^ 2)).sum ≤ 0 := by
    by_contra hpos
    push_neg at hpos
    have := div_pos hpos hlen
    linarith
  have hsum0 : (l.map (fun x => x ^ 2)).sum = 0 :=
    le_antisymm hsum (sum_sq_nonneg l)
  have hall : ∀ y ∈ l.map (fun x => x ^ 2), y = 0 := by
    intro y hy
    have h1 : y ≤ (l.map (fun x => x ^ 2)).sum := by
      apply List.single_le_sum
      · intro z hz
        rcases List.mem_map.mp hz with ⟨w, _, rfl⟩
        positivity
      · exact hy
    rcases List.mem_map.mp hy with ⟨w, _, rfl⟩
    nlinarith [sq_nonneg w]
  have := hall (x ^ 2) (List.mem_map.mpr ⟨x, hx, rfl⟩)
  exact pow_eq_zero_iff (by norm_num) |>.mp this

/-- The RMS scaling step preserves emptiness. -/
theorem rmsScale_nil_iff (l : List ℝ) : rmsScale l = [] ↔ l = [] := by
  unfold rmsScale
  split <;> simp

/-- On a nonempty signal the source normalizer succeeds and computes
exactly the two spec scaling steps. -/
theorem normalize_volume_ok {l : List ℝ} (h : l ≠ []) :
    normalize_volume l = Except.ok (normalizerSpec l) := by
  unfold normalize_volume normalizerSpec peakScale
  have hne : rmsScale l ≠ [] := fun hx => h ((rmsScale_nil_iff l).mp hx)
  have hemp : (rmsScale l).isEmpty = false := by
    simpa [List.isEmpty_iff] using hne
  simp only [rmsScale] at hemp ⊢
  rw [hemp]
  simp

/-- On the empty signal the peak reduction of the normalizer raises. -/
theorem normalize_volume_nil :
    normalize_volume [] = Except.error emptyReduceMsg := by
  unfold normalize_volume
  simp

/-- An identically zero signal is a fixed point of both scaling steps. -/
theorem spec_of_all_zero {l : List ℝ} (hz : ∀ x ∈ l, x = 0) :
    normalizerSpec l = l := by
  have hr : ¬ 0 < rms l := by
    intro hpos
    rcases eq_or_ne l [] with rfl | hne
    · unfold rms at hpos; simp at hpos
    · have hsum : (l.map (fun x => x ^ 2)).sum = 0 := by
        have : l.map (fun x => x ^ 2) = l.map (fun _ => (0 : ℝ)) :=
          List.map_congr_left (fun x hx => by rw [hz x hx]; norm_num)
        rw [this]
        simp
      unfold rms at hpos
      rw [hsum] at hpos
      simp at hpos
  have hpk : peakAbs l = 0 := by
    apply le_antisymm _ (peakAbs_nonneg l)
    apply peakAbs_le le_rfl
    intro x hx
    rw [hz x hx]
    simp
  unfold normalizerSpec rmsScale
  rw [if_neg hr]
  unfold peakScale
  rw [hpk]
  norm_num

/-- Multiplying every sample by one is the identity. -/
theorem map_mul_one (l : List ℝ) : l.map (fun x => x * 1) = l := by
  simp

/-- Two uniform gains compose by multiplying. -/
theorem map_mul_mul (l : List ℝ) (a b : ℝ) :
    (l.map (fun x => x * a)).map (fun x => x * b) = l.map (fun x => x * (a * b)) := by
  rw [List.map_map]
  apply List.map_congr_left
  intro x _
  simp [mul_assoc]

/-- The spec normalizer is a fixed point of itself: a second application
reproduces its own output exactly. -/
theorem normalizerSpec_fix (l : List ℝ) :
    normalizerSpec (normalizerSpec l) = normalizerSpec l := by
  by_cases hr : 0 < rms l
  · set c := (0.1 : ℝ) / rms l with hc
    have hcpos : 0 < c := by positivity
    have hs : rmsScale l = l.map (fun x => x * c) := by
      unfold rmsScale; rw [if_pos hr]
    set s := l.map (fun x => x * c) with hsdef
    have hrs : rms s = 0.1 := by
      rw [hsdef, rms_map_mul, abs_of_pos hcpos, hc]
      field_simp
    by_cases hp : 0.95 < peakAbs s
    · have hppos : 0 < peakAbs s := lt_trans (by norm_num) hp
      set y := s.map (fun x => x * (0.95 / peakAbs s)) with hydef
      have hy : normalizerSpec l = y := by
        unfold normalizerSpec peakScale
        rw [hs, if_pos hp, hydef]
      have hry : rms y = (0.95 / peakAbs s) * 0.1 := by
        rw [hydef, rms_map_mul, hrs, abs_of_pos (by positivity)]
      have hrypos : 0 < rms y := by rw [hry]; positivity
      have hfac : (0.1 : ℝ) / rms y = peakAbs s / 0.95 := by
        rw [hry]
        field_simp
        ring
      have hsy : rmsScale y = s := by
        unfold rmsScale
        rw [if_pos hrypos, hfac, hydef, map_mul_mul]
        rw [show (0.95 / peakAbs s) * (peakAbs s / 0.95) = 1 by field_simp]
        exact map_mul_one s
      have hfix : normalizerSpec y = y := by
        unfold normalizerSpec
        rw [hsy]
        unfold peakScale
        rw [if_pos hp, hydef]
      rw [hy, hfix]
    · have hy : normalizerSpec l = s := by
        unfold normalizerSpec peakScale
        rw [hs, if_neg hp]
      have hrspos : (0 : ℝ) < rms s := by rw [hrs]; norm_num
      have hss : rmsScale s = s := by
        unfold rmsScale
        rw [if_pos hrspos, hrs]
        rw [show (0.1 : ℝ) / 0.1 = 1 by norm_num]
        exact map_mul_one s
      have hfix : normalizerSpec s = s := by
        unfold normalizerSpec
        rw [hss]
        unfold peakScale
        rw [if_neg hp]
      rw [hy, hfix]
  · have hz := all_zero_of_not_rms_pos hr
    have h1 : normalizerSpec l = l := spec_of_all_zero hz
    rw [h1, h1]

/-- Both scaling steps preserve the sample count. -/
theorem normalizerSpec_length (l : List ℝ) :
    (normalizerSpec l).length = l.length := by
  unfold normalizerSpec peakScale rmsScale
  split <;> split <;> simp

/-- The spec normalizer of a nonempty signal is nonempty. -/
theorem normalizerSpec_ne_nil {l : List ℝ} (h : l ≠ []) :
    normalizerSpec l ≠ [] := by
  intro hx
  apply h
  have hlen := normalizerSpec_length l
  rw [hx] at hlen
  exact List.length_eq_zero.mp hlen.symm

/-! ## Claim C3 -/

/-- Claim C3 counterexample: on the empty signal the normalizer does fail,
because the peak reduction has no identity on an empty array; so the
operation does not succeed for every signal. -/
theorem C3_counterexample :
    normalize_volume [] = Except.error emptyReduceMsg :=
  normalize_volume_nil

/-- Claim C3 (amended): on every nonempty signal the normalizer cannot
fail and computes exactly the specified two steps: RMS scaling towards the
0.1 target when RMS is positive, then peak rescaling by 0.95/peak when the
peak exceeds 0.95; a nonempty all-zero signal is returned unchanged. On
the empty signal the peak reduction raises. -/
theorem C3_amended_claim (l : List ℝ) (h : l ≠ []) :
    normalize_volume l = Except.ok (normalizerSpec l) ∧
    ((∀ x ∈ l, x = 0) → normalize_volume l = Except.ok l) :=
  ⟨normalize_volume_ok h,
   fun hz => by rw [normalize_volume_ok h, spec_of_all_zero hz]⟩

/-- Witness for the amended C3 theorem at a concrete one-sample signal. -/
theorem C3_witness :
    ([(1 : ℝ) / 2] ≠ ([] : List ℝ)) ∧
    (normalize_volume [(1 : ℝ) / 2] = Except.ok (normalizerSpec [(1 : ℝ) / 2]) ∧
      ((∀ x ∈ [(1 : ℝ) / 2], x = 0) →
        normalize_volume [(1 : ℝ) / 2] = Except.ok [(1 : ℝ) / 2])) :=
  ⟨by simp, C3_amended_claim [(1 : ℝ) / 2] (by simp)⟩

/-! ## Claim C7 -/

/-- Claim C7: the volume normalizer is idempotent, exactly (hence in
particular within any floating point tolerance): running it on its own
output reproduces that output, and on the empty signal both the single and
the double application fail with the same error. -/
theorem C7_theorem (l : List ℝ) :
    Except.bind (normalize_volume l) normalize_volume = normalize_volume l := by
  rcases eq_or_ne l [] with rfl | hne
  · rw [normalize_volume_nil]
    rfl
  · rw [normalize_volume_ok hne]
    show normalize_volume (normalizerSpec l) = Except.ok (normalizerSpec l)
    rw [normalize_volume_ok (normalizerSpec_ne_nil hne), normalizerSpec_fix]

/-! ## Claim C6 -/

/-- A clipped sample has absolute value at most one. -/
theorem clip1_abs_le_one (x : ℝ) : |clip1 x| ≤ 1 := by
  unfold clip1
  rw [abs_le]
  constructor
  · have h1 : (-1 : ℝ) ≤ max x (-1) := le_max_right _ _
    have h2 : (-1 : ℝ) ≤ 1 := by norm_num
    exact le_min h1 h2
  · exact min_le_right _ _

/-- Clipping does not move a sample already within the clip range. -/
theorem clip1_of_abs_le {x : ℝ} (h : |x| ≤ 1) : clip1 x = x := by
  rw [abs_le] at h
  unfold clip1
  rw [max_eq_left h.1, min_eq_left h.2]

/-- After peak normalization the peak is at most 0.891 (exactly 0.891 when
the signal is not silent, 0 otherwise). -/
theorem peakNormalize_peak_le (l : List ℝ) : peakAbs (peakNormalize l) ≤ 0.891 := by
  unfold peakNormalize
  by_cases hp : 0 < peakAbs l
  · rw [if_pos hp, peakAbs_map_mul, abs_of_pos (by positivity),
      div_mul_cancel₀ _ (ne_of_gt hp)]
  · rw [if_neg hp]
    have h0 : peakAbs l = 0 := le_antisymm (not_lt.mp hp) (peakAbs_nonneg l)
    rw [h0]
    norm_num

/-- Claim C6: whenever the final stage succeeds, the persisted signal has
maximum absolute sample at most 1, and whenever the clip step moved no
sample the maximum absolute sample is at most 0.891. -/
theorem C6_theorem (l y : List ℝ) (h : final_normalize l = Except.ok y) :
    peakAbs y ≤ 1 ∧ ((∀ x ∈ peakNormalize l, |x| ≤ 1) → peakAbs y ≤ 0.891) := by
  unfold final_normalize at h
  by_cases he : l.isEmpty
  · rw [if_pos he] at h
    simp at h
  · rw [if_neg he] at h
    have hy : (peakNormalize l).map clip1 = y := by
      injection h
    subst hy
    constructor
    · apply peakAbs_le (by norm_num)
      intro x hx
      rcases List.mem_map.mp hx with ⟨z, _, rfl⟩
      exact clip1_abs_le_one z
    · intro hnc
      have h2 : (peakNormalize l).map clip1 = (peakNormalize l).map (fun x => x) :=
        List.map_congr_left fun x hx => clip1_of_abs_le (hnc x hx)
      rw [h2, List.map_id']
      exact peakNormalize_peak_le l

/-- Peak of the concrete one-sample signal used by the witnesses. -/
theorem peakAbs_half : peakAbs [(1 : ℝ) / 2] = 1 / 2 := by
  unfold peakAbs
  simp only [List.map_cons, List.map_nil, List.foldr_cons, List.foldr_nil]
  rw [abs_of_pos (by norm_num)]
  norm_num

/-- The final stage on the one-sample signal 1/2 produces exactly the
0.891 peak target. -/
theorem final_normalize_half :
    final_normalize [(1 : ℝ) / 2] = Except.ok [(0.891 : ℝ)] := by
  unfold final_normalize peakNormalize
  rw [peakAbs_half]
  norm_num [clip1]

/-- Witness for the C6 theorem at the concrete signal 1/2. -/
theorem C6_witness :
    final_normalize [(1 : ℝ) / 2] = Except.ok [(0.891 : ℝ)] ∧
    (peakAbs [(0.891 : ℝ)] ≤ 1 ∧
      ((∀ x ∈ peakNormalize [(1 : ℝ) / 2], |x| ≤ 1) →
        peakAbs [(0.891 : ℝ)] ≤ 0.891)) :=
  ⟨final_normalize_half, C6_theorem [(1 : ℝ) / 2] [(0.891 : ℝ)] final_normalize_half⟩

/-! ## Claim C10 -/

/-- The compression gain is strictly positive, at most one, exactly one at
or below the 0.1 threshold and strictly below one above it. -/
theorem compression_gain_bounds (e : ℝ) :
    0 < compression_gain e ∧ compression_gain e ≤ 1 ∧
      (e ≤ 0.1 → compression_gain e = 1) ∧ (0.1 < e → compression_gain e < 1) := by
  unfold compression_gain
  by_cases h : (0.1 : ℝ) < e
  · rw [if_pos h]
    have he : (0 : ℝ) < e := by linarith
    have hnum : (0 : ℝ) < 0.1 + (e - 0.1) / 3 := by linarith
    have hlt : (0.1 + (e - 0.1) / 3) / e < 1 := by
      rw [div_lt_one he]
      linarith
    exact ⟨div_pos hnum he, le_of_lt hlt,
      fun hc => absurd hc (not_le.mpr h), fun _ => hlt⟩
  · rw [if_neg h]
    exact ⟨by norm_num, le_rfl, fun _ => rfl, fun hc => absurd hc h⟩

/-- Compression never amplifies a sample. -/
theorem compression_no_amplify (audio envl : List ℝ) (i : ℕ) :
    |(apply_compression audio envl).getD i 0| ≤ |audio.getD i 0| := by
  induction audio generalizing envl i with
  | nil => simp [apply_compression]
  | cons x t ih =>
    cases envl with
    | nil => simp [apply_compression]
    | cons e et =>
      cases i with
      | zero =>
        simp only [apply_compression, List.zipWith_cons_cons, List.getD_cons_zero]
        rw [abs_mul]
        have hb := compression_gain_bounds e
        have habs : |compression_gain e| ≤ 1 := by
          rw [abs_of_pos hb.1]
          exact hb.2.1
        calc |x| * |compression_gain e| ≤ |x| * 1 :=
              mul_le_mul_of_nonneg_left habs (abs_nonneg x)
          _ = |x| := mul_one _
      | succ n =>
        simp only [apply_compression, List.zipWith_cons_cons, List.getD_cons_succ]
        exact ih et n

/-- Claim C10: the per-sample compression gain lies in (0, 1], is exactly
one at or below the 0.1 envelope threshold and strictly below one above
it, and consequently no output sample exceeds the matching input sample in
absolute value. -/
theorem C10_theorem :
    (∀ e : ℝ, 0 < compression_gain e ∧ compression_gain e ≤ 1 ∧
      (e ≤ 0.1 → compression_gain e = 1) ∧ (0.1 < e → compression_gain e < 1)) ∧
    (∀ (audio envl : List ℝ) (i : ℕ),
      |(apply_compression audio envl).getD i 0| ≤ |audio.getD i 0|) :=
  ⟨compression_gain_bounds, compression_no_amplify⟩

/-- Witness for the C10 theorem at concrete envelope values below and
above the threshold. -/
theorem C10_witness :
    ((1 : ℝ) / 20 ≤ 0.1 ∧ compression_gain ((1 : ℝ) / 20) = 1) ∧
    ((0.1 : ℝ) < 1 ∧ compression_gain 1 < 1) ∧
    |(apply_compression [(2 : ℝ)] [(1 : ℝ)]).getD 0 0| ≤ |([(2 : ℝ)]).getD 0 0| :=
  ⟨⟨by norm_num, (C10_theorem.1 ((1 : ℝ) / 20)).2.2.1 (by norm_num)⟩,
   ⟨by norm_num, (C10_theorem.1 1).2.2.2 (by norm_num)⟩,
   C10_theorem.2 [(2 : ℝ)] [(1 : ℝ)] 0⟩

/-! ## Claim C2 -/

/-- RMS of the concrete one-sample signal 1/2. -/
theorem rms_half : rms [(1 : ℝ) / 2] = 1 / 2 := by
  unfold rms
  have h4 : Real.sqrt 4 = 2 := by
    rw [show (4 : ℝ) = 2 ^ 2 by norm_num, Real.sqrt_sq (by norm_num)]
  norm_num [h4]

/-- Peak of the concrete one-sample signal 1/10. -/
theorem peakAbs_tenth : peakAbs [(1 : ℝ) / 10] = 1 / 10 := by
  unfold peakAbs
  simp only [List.map_cons, List.map_nil, List.foldr_cons, List.foldr_nil]
  rw [abs_of_pos (by norm_num)]
  norm_num

/-- The normalizer scales the one-sample signal 1/2 to the 0.1 RMS target. -/
theorem normalize_volume_half :
    normalize_volume [(1 : ℝ) / 2] = Except.ok [(1 : ℝ) / 10] := by
  unfold normalize_volume
  rw [rms_half]
  norm_num
  intro h
  rw [peakAbs_tenth] at h
  norm_num at h

/-- The final stage on the one-sample signal 1/10 reaches the 0.891 peak. -/
theorem final_normalize_tenth :
    final_normalize [(1 : ℝ) / 10] = Except.ok [(0.891 : ℝ)] := by
  unfold final_normalize peakNormalize
  rw [peakAbs_tenth]
  norm_num [clip1]

/-- Evaluation of the pipeline in the concrete environment where only the
metrics computation raises: the run reports failure although the output
file has been written, because calculate_metrics runs after the save. -/
theorem process_envCE_eval :
    process envCE "clean.wav" = (.failure "metrics computation failed", true) := by
  unfold process envCE
  dsimp only
  rw [normalize_volume_half]
  dsimp only
  rw [final_normalize_tenth]

/-- Claim C2 counterexample: a pipeline run that returns a failure record
with the output file already written, contradicting that no output file is
written on failure. -/
theorem C2_counterexample :
    process envCE "clean.wav" = (.failure "metrics computation failed", true) :=
  process_envCE_eval

/-- Claim C2 (amended): every run yields a success or failure record (the
controller catches every stage failure), and a failure with the output
file written can only arise from the metrics computation, which runs after
the save; failures in any stage up to and including the save leave the
output unwritten. -/
theorem C2_amended_claim (env : StageEnv) (p e : String)
    (h : process env p = (.failure e, true)) :
    ∃ a, env.write_file a = Except.ok () ∧
      env.calculate_metrics a = Except.error e := by
  unfold process at h
  split at h
  · simp at h
  split at h
  · simp at h
  split at h
  · simp at h
  split at h
  · simp at h
  split at h
  · simp at h
  split at h
  · simp at h
  split at h
  · simp at h
  split at h
  · simp at h
  split at h
  · simp only [Prod.mk.injEq, PResult.failure.injEq, and_true] at h
    subst h
    exact ⟨_, by assumption, by assumption⟩
  · simp at h

/-- Witness for the amended C2 theorem in the concrete environment. -/
theorem C2_witness :
    ∃ a, envCE.write_file a = Except.ok () ∧
      envCE.calculate_metrics a = Except.error "metrics computation failed" :=
  C2_amended_claim envCE "clean.wav" "metrics computation failed" process_envCE_eval

end EchoNote
